import Mathlib

/-!
Verification of the alignment-search engine of the `ecliptic` repository.

Python floats are modelled by the rational numbers `ℚ`: every literal the
source manipulates (degrees, thresholds, Julian day numbers) is a decimal
fraction, and the algorithms use only field operations, comparisons,
`math.floor`-style truncations and `%`.  Calendar dates are modelled by
their day number as an integer (`ℤ`), with `+ timedelta(days=1)` becoming
`+ 1`.  The two network providers (Horizons ephemerides and elements) are
modelled as oracle functions passed to the scan, and the scan additionally
returns the list of fetches it performed so that "fails before any network
interaction" is expressible.  Radian-valued quantities (`math.radians`,
`math.pi`) live in `ℝ`.
-/

namespace Ecliptic

/-- Floor of a rational number computed from its numerator and denominator.
`Int.fdiv` is floor division, which is what Python `math.floor` and the
float `%` operator are built on. -/
def qfloor (x : ℚ) : ℤ := Int.fdiv x.num x.den

theorem qfloor_eq (x : ℚ) : qfloor x = ⌊x⌋ := by
  rw [Rat.floor_def, qfloor, Int.fdiv_eq_ediv]
  exact Int.ofNat_le.mpr (Nat.zero_le _)

/-- Embeds the Python expression `x % 360.0`: the representative of `x`
modulo 360 lying in `[0, 360)`. -/
def norm360 (x : ℚ) : ℚ := x - 360 * qfloor (x / 360)

theorem norm360_def' (x : ℚ) : norm360 x = x - 360 * ⌊x / 360⌋ := by
  rw [norm360, qfloor_eq]

theorem norm360_nonneg (x : ℚ) : 0 ≤ norm360 x := by
  rw [norm360_def']
  have h := Int.floor_le (x / 360)
  have h360 : (0:ℚ) < 360 := by norm_num
  have := (mul_le_mul_left h360).mpr h
  rw [mul_div_cancel₀ x (by norm_num : (360:ℚ) ≠ 0)] at this
  linarith

theorem norm360_lt (x : ℚ) : norm360 x < 360 := by
  rw [norm360_def']
  have h := Int.lt_floor_add_one (x / 360)
  have h360 : (0:ℚ) < 360 := by norm_num
  have := (mul_lt_mul_left h360).mpr h
  rw [mul_div_cancel₀ x (by norm_num : (360:ℚ) ≠ 0)] at this
  linarith

theorem norm360_eq_self {x : ℚ} (h0 : 0 ≤ x) (h1 : x < 360) : norm360 x = x := by
  rw [norm360_def']
  have : ⌊x / 360⌋ = 0 := by
    rw [Int.floor_eq_zero_iff]
    constructor
    · positivity
    · rw [div_lt_one (by norm_num : (0:ℚ) < 360)]; exact h1
  rw [this]
  push_cast
  ring

theorem norm360_add_int_mul (x : ℚ) (k : ℤ) : norm360 (x + 360 * k) = norm360 x := by
  rw [norm360_def', norm360_def']
  have : (x + 360 * k) / 360 = x / 360 + k := by
    field_simp
    ring
  rw [this, Int.floor_add_int]
  push_cast
  ring

/-- Python `max` over a list (`0` on the empty list, which Python would
reject; the sources only call it on non-empty lists). -/
def maxList : List ℚ → ℚ
  | [] => 0
  | x :: xs => xs.foldl max x

/-- Python `min` over a list (`0` on the empty list). -/
def minList : List ℚ → ℚ
  | [] => 0
  | x :: xs => xs.foldl min x

theorem foldl_max_max (l : List ℚ) : ∀ a b : ℚ, l.foldl max (max a b) = max a (l.foldl max b) := by
  induction l with
  | nil => intro a b; rfl
  | cons c l ih =>
    intro a b
    simp only [List.foldl_cons]
    rw [max_assoc, ih]

theorem foldl_min_min (l : List ℚ) : ∀ a b : ℚ, l.foldl min (min a b) = min a (l.foldl min b) := by
  induction l with
  | nil => intro a b; rfl
  | cons c l ih =>
    intro a b
    simp only [List.foldl_cons]
    rw [min_assoc, ih]

theorem maxList_cons (x y : ℚ) (ys : List ℚ) :
    maxList (x :: y :: ys) = max x (maxList (y :: ys)) := by
  show (y :: ys).foldl max x = max x (ys.foldl max y)
  rw [List.foldl_cons]
  exact foldl_max_max ys x y

theorem minList_cons (x y : ℚ) (ys : List ℚ) :
    minList (x :: y :: ys) = min x (minList (y :: ys)) := by
  show (y :: ys).foldl min x = min x (ys.foldl min y)
  rw [List.foldl_cons]
  exact foldl_min_min ys x y

theorem le_maxList {l : List ℚ} {a : ℚ} (h : a ∈ l) : a ≤ maxList l := by
  induction l with
  | nil => cases h
  | cons x xs ih =>
    cases xs with
    | nil =>
      rw [List.mem_singleton] at h
      subst h; exact le_refl _
    | cons y ys =>
      rw [maxList_cons]
      rcases List.mem_cons.mp h with rfl | h2
      · exact le_max_left _ _
      · exact le_trans (ih h2) (le_max_right _ _)

theorem minList_le {l : List ℚ} {a : ℚ} (h : a ∈ l) : minList l ≤ a := by
  induction l with
  | nil => cases h
  | cons x xs ih =>
    cases xs with
    | nil =>
      rw [List.mem_singleton] at h
      subst h; exact le_refl _
    | cons y ys =>
      rw [minList_cons]
      rcases List.mem_cons.mp h with rfl | h2
      · exact min_le_left _ _
      · exact le_trans (min_le_right _ _) (ih h2)

theorem maxList_mem {l : List ℚ} (h : l ≠ []) : maxList l ∈ l := by
  induction l with
  | nil => exact absurd rfl h
  | cons x xs ih =>
    cases xs with
    | nil => simp [maxList]
    | cons y ys =>
      rw [maxList_cons]
      rcases max_choice x (maxList (y :: ys)) with hc | hc
      · rw [hc]; exact List.mem_cons_self _ _
      · rw [hc]; exact List.mem_cons_of_mem _ (ih (by simp))

theorem minList_mem {l : List ℚ} (h : l ≠ []) : minList l ∈ l := by
  induction l with
  | nil => exact absurd rfl h
  | cons x xs ih =>
    cases xs with
    | nil => simp [minList]
    | cons y ys =>
      rw [minList_cons]
      rcases min_choice x (minList (y :: ys)) with hc | hc
      · rw [hc]; exact List.mem_cons_self _ _
      · rw [hc]; exact List.mem_cons_of_mem _ (ih (by simp))

theorem maxList_le {l : List ℚ} {c : ℚ} (hne : l ≠ []) (h : ∀ b ∈ l, b ≤ c) :
    maxList l ≤ c := by
  induction l with
  | nil => exact absurd rfl hne
  | cons x xs ih =>
    cases xs with
    | nil => exact h x (List.mem_cons_self _ _)
    | cons y ys =>
      rw [maxList_cons]
      refine max_le (h x (List.mem_cons_self _ _)) (ih (by simp) ?_)
      intro b hb
      exact h b (List.mem_cons_of_mem _ hb)

theorem le_minList {l : List ℚ} {c : ℚ} (hne : l ≠ []) (h : ∀ b ∈ l, c ≤ b) :
    c ≤ minList l := by
  induction l with
  | nil => exact absurd rfl hne
  | cons x xs ih =>
    cases xs with
    | nil => exact h x (List.mem_cons_self _ _)
    | cons y ys =>
      rw [minList_cons]
      refine le_min (h x (List.mem_cons_self _ _)) (ih (by simp) ?_)
      intro b hb
      exact h b (List.mem_cons_of_mem _ hb)

theorem maxList_perm {l₁ l₂ : List ℚ} (hp : l₁.Perm l₂) : maxList l₁ = maxList l₂ := by
  cases l₁ with
  | nil =>
    have : l₂ = [] := hp.symm.eq_nil
    rw [this]
  | cons x xs =>
    have h1 : (x :: xs) ≠ [] := by simp
    have h2 : l₂ ≠ [] := by
      intro h
      subst h
      exact absurd hp.eq_nil (by simp)
    exact le_antisymm
      (maxList_le h1 fun b hb => le_maxList (hp.mem_iff.mp hb))
      (maxList_le h2 fun b hb => le_maxList (hp.mem_iff.mpr hb))

theorem minList_perm {l₁ l₂ : List ℚ} (hp : l₁.Perm l₂) : minList l₁ = minList l₂ := by
  cases l₁ with
  | nil =>
    have : l₂ = [] := hp.symm.eq_nil
    rw [this]
  | cons x xs =>
    have h1 : (x :: xs) ≠ [] := by simp
    have h2 : l₂ ≠ [] := by
      intro h
      subst h
      exact absurd hp.eq_nil (by simp)
    exact le_antisymm
      (minList_le (hp.mem_iff.mpr (minList_mem h2)))
      (minList_le (hp.mem_iff.mp (minList_mem h1)))

theorem maxList_all_eq {l : List ℚ} {c : ℚ} (hne : l ≠ []) (h : ∀ b ∈ l, b = c) :
    maxList l = c := by
  have h1 : maxList l ≤ c := maxList_le hne fun b hb => le_of_eq (h b hb)
  have h2 : c ≤ maxList l := by
    obtain ⟨x, hx⟩ : ∃ x, x ∈ l := by
      cases l with
      | nil => exact absurd rfl hne
      | cons a as => exact ⟨a, List.mem_cons_self _ _⟩
    calc c = x := (h x hx).symm
      _ ≤ maxList l := le_maxList hx
  exact le_antisymm h1 h2

/-- Embeds the Python loop `for i in range(len(a)-1): gaps.append(a[i+1]-a[i])`:
the differences of consecutive entries of a list. -/
def consGaps : List ℚ → List ℚ
  | x :: y :: rest => (y - x) :: consGaps (y :: rest)
  | _ => []

theorem consGaps_nil : consGaps [] = [] := rfl

theorem consGaps_singleton (x : ℚ) : consGaps [x] = [] := rfl

theorem consGaps_cons_cons (x y : ℚ) (r : List ℚ) :
    consGaps (x :: y :: r) = (y - x) :: consGaps (y :: r) := rfl

theorem consGaps_length (x : ℚ) (xs : List ℚ) :
    (consGaps (x :: xs)).length = xs.length := by
  induction xs generalizing x with
  | nil => rfl
  | cons y ys ih => simp [consGaps_cons_cons, ih y]

theorem getLastD_cons_cons (x y : ℚ) (ys : List ℚ) (d : ℚ) :
    (x :: y :: ys).getLastD d = (y :: ys).getLastD d := by
  simp [List.getLastD_cons]

theorem consGaps_sum (x : ℚ) (xs : List ℚ) :
    (consGaps (x :: xs)).sum = (x :: xs).getLastD 0 - x := by
  induction xs generalizing x with
  | nil => simp [consGaps_singleton, List.getLastD_cons]
  | cons y ys ih =>
    rw [consGaps_cons_cons, List.sum_cons, ih y, getLastD_cons_cons]
    ring

theorem getLastD_mem {l : List ℚ} (h : l ≠ []) : l.getLastD 0 ∈ l := by
  induction l with
  | nil => exact absurd rfl h
  | cons x xs ih =>
    cases xs with
    | nil => simp [List.getLastD_cons]
    | cons y ys =>
      rw [getLastD_cons_cons]
      exact List.mem_cons_of_mem _ (ih (by simp))

theorem headI_mem {l : List ℚ} (h : l ≠ []) : l.headI ∈ l := by
  cases l with
  | nil => exact absurd rfl h
  | cons x xs => simp

theorem sorted_headI_le {l : List ℚ} (hs : l.Sorted (· ≤ ·)) {c : ℚ} (hc : c ∈ l) :
    l.headI ≤ c := by
  cases l with
  | nil => cases hc
  | cons x xs =>
    rcases List.mem_cons.mp hc with rfl | h2
    · simp
    · exact (List.sorted_cons.mp hs).1 c h2

theorem sorted_le_getLastD : ∀ {l : List ℚ}, l.Sorted (· ≤ ·) →
    ∀ {c : ℚ}, c ∈ l → c ≤ l.getLastD 0 := by
  intro l
  induction l with
  | nil => intro _ c hc; cases hc
  | cons x xs ih =>
    intro hs c hc
    cases xs with
    | nil =>
      rw [List.mem_singleton] at hc
      subst hc
      simp [List.getLastD_cons]
    | cons y ys =>
      rw [getLastD_cons_cons]
      have hs2 := List.sorted_cons.mp hs
      rcases List.mem_cons.mp hc with rfl | h2
      · exact le_trans (hs2.1 y (List.mem_cons_self _ _))
          (ih hs2.2 (List.mem_cons_self _ _))
      · exact ih hs2.2 h2

theorem consGaps_nonneg {l : List ℚ} (hs : l.Sorted (· ≤ ·)) :
    ∀ g ∈ consGaps l, 0 ≤ g := by
  induction l with
  | nil => intro g hg; cases hg
  | cons x xs ih =>
    cases xs with
    | nil => intro g hg; cases hg
    | cons y ys =>
      intro g hg
      rw [consGaps_cons_cons] at hg
      have hs2 := List.sorted_cons.mp hs
      rcases List.mem_cons.mp hg with rfl | h2
      · have : x ≤ y := hs2.1 y (List.mem_cons_self _ _)
        linarith
      · exact ih hs2.2 g h2

theorem sub_mem_consGaps {l : List ℚ} (hs : l.Sorted (· ≤ ·)) {a b : ℚ}
    (ha : a ∈ l) (hb : b ∈ l) (hab : a < b)
    (hdich : ∀ c ∈ l, c ≤ a ∨ b ≤ c) : b - a ∈ consGaps l := by
  induction l with
  | nil => cases ha
  | cons x xs ih =>
    cases xs with
    | nil =>
      rw [List.mem_singleton] at ha hb
      subst ha; subst hb
      exact absurd hab (lt_irrefl _)
    | cons y ys =>
      have hs2 := List.sorted_cons.mp hs
      have hxy : x ≤ y := hs2.1 y (List.mem_cons_self _ _)
      rw [consGaps_cons_cons]
      rcases List.mem_cons.mp ha with rfl | ha2
      · -- a is the head x
        rcases eq_or_lt_of_le hxy with heq | hlt
        · -- x = y : recurse with the same endpoints inside the tail
          refine List.mem_cons_of_mem _ (ih hs2.2 ?_ ?_ ?_)
          · rw [heq]; exact List.mem_cons_self _ _
          · rcases List.mem_cons.mp hb with rfl | hb2
            · exact absurd hab (lt_irrefl _)
            · exact hb2
          · intro c hc
            exact hdich c (List.mem_cons_of_mem _ hc)
        · -- x < y : then b = y and the head gap is b - a
          have hby : b ≤ y := by
            rcases hdich y (List.mem_cons_of_mem _ (List.mem_cons_self _ _)) with h | h
            · exact absurd (lt_of_le_of_lt h hlt) (lt_irrefl _)
            · exact h
          have hyb : y ≤ b := by
            rcases List.mem_cons.mp hb with rfl | hb2
            · exact absurd hab (lt_irrefl _)
            · exact sorted_headI_le hs2.2 hb2
          have : b = y := le_antisymm hby hyb
          subst this
          exact List.mem_cons_self _ _
      · -- a lies in the tail
        have hb2 : b ∈ y :: ys := by
          rcases List.mem_cons.mp hb with rfl | h
          · exact absurd (lt_of_lt_of_le hab (hs2.1 a ha2)) (lt_irrefl _)
          · exact h
        refine List.mem_cons_of_mem _ (ih hs2.2 ha2 hb2 ?_)
        intro c hc
        exact hdich c (List.mem_cons_of_mem _ hc)

theorem consGaps_mem_adjacent {l : List ℚ} (hs : l.Sorted (· ≤ ·)) {g : ℚ}
    (hg : g ∈ consGaps l) :
    ∃ a b, a ∈ l ∧ b ∈ l ∧ g = b - a ∧ a ≤ b ∧ ∀ c ∈ l, c ≤ a ∨ b ≤ c := by
  induction l with
  | nil => cases hg
  | cons x xs ih =>
    cases xs with
    | nil => cases hg
    | cons y ys =>
      have hs2 := List.sorted_cons.mp hs
      have hxy : x ≤ y := hs2.1 y (List.mem_cons_self _ _)
      rw [consGaps_cons_cons] at hg
      rcases List.mem_cons.mp hg with rfl | h2
      · refine ⟨x, y, List.mem_cons_self _ _, List.mem_cons_of_mem _ (List.mem_cons_self _ _),
          rfl, hxy, ?_⟩
        intro c hc
        rcases List.mem_cons.mp hc with rfl | hc2
        · exact Or.inl (le_refl _)
        · exact Or.inr (sorted_headI_le hs2.2 hc2)
      · obtain ⟨a, b, ha, hb, heq, hab, hdich⟩ := ih hs2.2 h2
        refine ⟨a, b, List.mem_cons_of_mem _ ha, List.mem_cons_of_mem _ hb, heq, hab, ?_⟩
        intro c hc
        rcases List.mem_cons.mp hc with rfl | hc2
        · exact Or.inl (le_trans hxy (sorted_headI_le hs2.2 ha))
        · exact hdich c hc2

/-- Embeds Python `sorted` on a list of floats. -/
def sortQ (l : List ℚ) : List ℚ := l.insertionSort (· ≤ ·)

theorem sortQ_perm (l : List ℚ) : (sortQ l).Perm l := List.perm_insertionSort _ _

theorem sortQ_sorted (l : List ℚ) : (sortQ l).Sorted (· ≤ ·) := List.sorted_insertionSort _ _

theorem sortQ_length (l : List ℚ) : (sortQ l).length = l.length :=
  (sortQ_perm l).length_eq

/-- Embeds `_circular_span_deg` from `src/ecliptic/basic_scan.py`: normalize the
angles into `[0,360)`, sort, take the largest gap between consecutive angles
(wrap-around gap included) and return `360` minus it; empty and singleton
inputs return `0`. -/
def circularSpanDeg (angles_deg : List ℚ) : ℚ :=
  if angles_deg = [] then 0
  else
    let a := sortQ (angles_deg.map norm360)
    if a.length = 1 then 0
    else
      let gaps := consGaps a ++ [a.headI + 360 - a.getLastD 0]
      360 - maxList gaps

/-- Embeds `circular_span_deg` from `src/eclipse2.py`.  That version has no
guard for degenerate inputs: on the empty list the expression `a[0]` raises
an `IndexError`, modelled by `none`. -/
def circular_span_deg (angles : List ℚ) : Option ℚ :=
  match sortQ (angles.map norm360) with
  | [] => none
  | x :: xs =>
    some (360 - maxList (consGaps (x :: xs) ++ [x + 360 - (x :: xs).getLastD 0]))

/-- Circular (counterclockwise) distance from angle `x` to angle `y`, in
`[0, 360)`. -/
def cdist (x y : ℚ) : ℚ := norm360 (y - x)

/-- Order-free characterisation of the minimal covering arc: the smallest,
over base points `x` of the list, of the farthest counterclockwise distance
from `x` to a point of the list. -/
def spanSpec (xs : List ℚ) : ℚ :=
  minList (xs.map fun x => maxList (xs.map fun y => cdist x y))

theorem cdist_self (x : ℚ) : cdist x x = 0 := by
  rw [cdist, sub_self]
  exact norm360_eq_self (le_refl 0) (by norm_num)

theorem cdist_of_bounds {x y : ℚ} (hx0 : 0 ≤ x) (hx1 : x < 360) (hy0 : 0 ≤ y) (hy1 : y < 360) :
    cdist x y = if x ≤ y then y - x else y - x + 360 := by
  rw [cdist]
  by_cases h : x ≤ y
  · rw [if_pos h]
    exact norm360_eq_self (by linarith) (by linarith)
  · rw [if_neg h]
    push_neg at h
    rw [← norm360_add_int_mul (y - x) 1]
    have heq : y - x + 360 * ((1 : ℤ) : ℚ) = y - x + 360 := by norm_num
    rw [heq]
    exact norm360_eq_self (by linarith) (by linarith)

theorem cdist_norm_right (x y : ℚ) : cdist x (norm360 y) = cdist x y := by
  rw [cdist, cdist, norm360_def' y]
  have : y - 360 * ⌊y / 360⌋ - x = (y - x) + 360 * ((-⌊y / 360⌋ : ℤ) : ℚ) := by
    push_cast; ring
  rw [this, norm360_add_int_mul]

theorem cdist_norm_left (x y : ℚ) : cdist (norm360 x) y = cdist x y := by
  rw [cdist, cdist, norm360_def' x]
  have : y - (x - 360 * ⌊x / 360⌋) = (y - x) + 360 * ((⌊x / 360⌋ : ℤ) : ℚ) := by
    ring
  rw [this, norm360_add_int_mul]

theorem cdist_shift (x y c : ℚ) : cdist (x + c) (y + c) = cdist x y := by
  rw [cdist, cdist]
  congr 1
  ring

/-- The value computed by the merged branch of the span functions on the
sorted normalized list: `360` minus the largest gap. -/
def spanOfSorted (l : List ℚ) : ℚ :=
  360 - maxList (consGaps l ++ [l.headI + 360 - l.getLastD 0])

theorem spanOfSorted_singleton (u : ℚ) : spanOfSorted [u] = 0 := by
  show 360 - maxList (consGaps [u] ++ [[u].headI + 360 - [u].getLastD 0]) = 0
  have h1 : consGaps [u] = [] := rfl
  have h2 : [u].headI = u := rfl
  have h3 : [u].getLastD 0 = u := rfl
  rw [h1, h2, h3, List.nil_append]
  have h4 : maxList [u + 360 - u] = u + 360 - u := rfl
  rw [h4]
  ring

theorem circularSpanDeg_eq_spanOfSorted (xs : List ℚ) (hne : xs ≠ []) :
    circularSpanDeg xs = spanOfSorted (sortQ (xs.map norm360)) := by
  rw [circularSpanDeg, if_neg hne]
  by_cases h1 : (sortQ (xs.map norm360)).length = 1
  · obtain ⟨u, hu⟩ := List.length_eq_one.mp h1
    show (if (sortQ (xs.map norm360)).length = 1 then (0:ℚ)
      else spanOfSorted (sortQ (xs.map norm360))) = spanOfSorted (sortQ (xs.map norm360))
    rw [if_pos h1, hu, spanOfSorted_singleton]
  · show (if (sortQ (xs.map norm360)).length = 1 then (0:ℚ)
      else spanOfSorted (sortQ (xs.map norm360))) = spanOfSorted (sortQ (xs.map norm360))
    rw [if_neg h1]

theorem spanSpec_le_spanOfSorted {l : List ℚ} (hs : l.Sorted (· ≤ ·)) (hne : l ≠ [])
    (hb : ∀ z ∈ l, 0 ≤ z ∧ z < 360) : spanSpec l ≤ spanOfSorted l := by
  have hmapne : (l.map fun x => maxList (l.map fun y => cdist x y)) ≠ [] := by
    simpa using hne
  have hmm : maxList (consGaps l ++ [l.headI + 360 - l.getLastD 0]) ∈
      consGaps l ++ [l.headI + 360 - l.getLastD 0] := maxList_mem (by simp)
  rw [spanSpec, spanOfSorted]
  rcases List.mem_append.mp hmm with hcons | hwrap
  · obtain ⟨a, b, ha, hbm, heq, hab, hdich⟩ := consGaps_mem_adjacent hs hcons
    refine le_trans (minList_le (List.mem_map_of_mem _ hbm)) ?_
    rw [heq]
    refine maxList_le (by simpa using hne) ?_
    intro v hv
    obtain ⟨y, hy, rfl⟩ := List.mem_map.mp hv
    obtain ⟨hy0, hy1⟩ := hb y hy
    obtain ⟨hb0, hb1⟩ := hb b hbm
    obtain ⟨ha0, ha1⟩ := hb a ha
    rcases le_or_lt b y with h | h
    · rw [cdist_of_bounds hb0 hb1 hy0 hy1, if_pos h]
      linarith
    · have hya : y ≤ a := by
        rcases hdich y hy with hh | hh
        · exact hh
        · exact absurd (lt_of_le_of_lt hh h) (lt_irrefl _)
      rw [cdist_of_bounds hb0 hb1 hy0 hy1, if_neg (not_le.mpr h)]
      linarith
  · have hweq : maxList (consGaps l ++ [l.headI + 360 - l.getLastD 0]) =
        l.headI + 360 - l.getLastD 0 := List.mem_singleton.mp hwrap
    refine le_trans (minList_le (List.mem_map_of_mem _ (headI_mem hne))) ?_
    rw [hweq]
    refine maxList_le (by simpa using hne) ?_
    intro v hv
    obtain ⟨y, hy, rfl⟩ := List.mem_map.mp hv
    obtain ⟨hy0, hy1⟩ := hb y hy
    obtain ⟨hh0, hh1⟩ := hb l.headI (headI_mem hne)
    rw [cdist_of_bounds hh0 hh1 hy0 hy1, if_pos (sorted_headI_le hs hy)]
    have := sorted_le_getLastD hs hy
    linarith

theorem spanOfSorted_le_spanSpec {l : List ℚ} (hs : l.Sorted (· ≤ ·)) (hne : l ≠ [])
    (hb : ∀ z ∈ l, 0 ≤ z ∧ z < 360) : spanOfSorted l ≤ spanSpec l := by
  rw [spanSpec, spanOfSorted]
  refine le_minList (by simpa using hne) ?_
  intro v hv
  obtain ⟨x, hx, rfl⟩ := List.mem_map.mp hv
  obtain ⟨hx0, hx1⟩ := hb x hx
  by_cases hmin : ∀ c ∈ l, x ≤ c
  · have hxh : x = l.headI := le_antisymm (hmin _ (headI_mem hne)) (sorted_headI_le hs hx)
    have hlast := getLastD_mem hne
    obtain ⟨hl0, hl1⟩ := hb _ hlast
    have h2 : cdist x (l.getLastD 0) ≤ maxList (l.map fun y => cdist x y) :=
      le_maxList (List.mem_map_of_mem _ hlast)
    have hcd : cdist x (l.getLastD 0) = l.getLastD 0 - x := by
      rw [cdist_of_bounds hx0 hx1 hl0 hl1, if_pos (hmin _ hlast)]
    have hwle : l.headI + 360 - l.getLastD 0 ≤
        maxList (consGaps l ++ [l.headI + 360 - l.getLastD 0]) :=
      le_maxList (by simp)
    linarith
  · push_neg at hmin
    obtain ⟨c0, hc0, hc0x⟩ := hmin
    have hflne : l.filter (fun c => decide (c < x)) ≠ [] := by
      intro hh
      have : c0 ∈ l.filter (fun c => decide (c < x)) :=
        List.mem_filter.mpr ⟨hc0, by simpa using hc0x⟩
      rw [hh] at this
      cases this
    have hpfl := maxList_mem hflne
    have hp_mem : maxList (l.filter (fun c => decide (c < x))) ∈ l :=
      (List.mem_filter.mp hpfl).1
    have hp_lt : maxList (l.filter (fun c => decide (c < x))) < x := by
      have := (List.mem_filter.mp hpfl).2
      simpa using this
    obtain ⟨hp0, hp1⟩ := hb _ hp_mem
    have hdich : ∀ c ∈ l, c ≤ maxList (l.filter (fun c => decide (c < x))) ∨ x ≤ c := by
      intro c hc
      rcases le_or_lt x c with h | h
      · exact Or.inr h
      · exact Or.inl (le_maxList (List.mem_filter.mpr ⟨hc, by simpa using h⟩))
    have hgap := sub_mem_consGaps hs hp_mem hx hp_lt hdich
    have h1 : x - maxList (l.filter (fun c => decide (c < x))) ≤
        maxList (consGaps l ++ [l.headI + 360 - l.getLastD 0]) :=
      le_maxList (List.mem_append_left _ hgap)
    have h2 : cdist x (maxList (l.filter (fun c => decide (c < x)))) ≤
        maxList (l.map fun y => cdist x y) :=
      le_maxList (List.mem_map_of_mem _ hp_mem)
    have hcd : cdist x (maxList (l.filter (fun c => decide (c < x)))) =
        maxList (l.filter (fun c => decide (c < x))) - x + 360 := by
      rw [cdist_of_bounds hx0 hx1 hp0 hp1, if_neg (not_le.mpr hp_lt)]
    linarith

theorem spanOfSorted_eq_spanSpec {l : List ℚ} (hs : l.Sorted (· ≤ ·)) (hne : l ≠ [])
    (hb : ∀ z ∈ l, 0 ≤ z ∧ z < 360) : spanOfSorted l = spanSpec l :=
  le_antisymm (spanOfSorted_le_spanSpec hs hne hb) (spanSpec_le_spanOfSorted hs hne hb)

theorem spanSpec_perm {xs ys : List ℚ} (hp : xs.Perm ys) : spanSpec xs = spanSpec ys := by
  rw [spanSpec, spanSpec]
  have hF : ∀ x : ℚ, maxList (xs.map fun y => cdist x y) = maxList (ys.map fun y => cdist x y) :=
    fun x => maxList_perm (hp.map _)
  rw [List.map_congr_left (fun a _ => hF a)]
  exact minList_perm (hp.map _)

theorem spanSpec_map_norm360 (xs : List ℚ) : spanSpec (xs.map norm360) = spanSpec xs := by
  rw [spanSpec, spanSpec]
  have hinner : ∀ x : ℚ,
      maxList ((xs.map norm360).map fun y => cdist x y) = maxList (xs.map fun y => cdist x y) := by
    intro x
    rw [List.map_map]
    congr 1
    refine List.map_congr_left ?_
    intro a _
    exact cdist_norm_right x a
  rw [List.map_congr_left (fun a _ => hinner a), List.map_map]
  congr 1
  refine List.map_congr_left ?_
  intro a _
  show maxList (xs.map fun y => cdist (norm360 a) y) = maxList (xs.map fun y => cdist a y)
  congr 1
  refine List.map_congr_left ?_
  intro b _
  exact cdist_norm_left a b

theorem circularSpanDeg_eq_spanSpec (xs : List ℚ) (hne : xs ≠ []) :
    circularSpanDeg xs = spanSpec xs := by
  have hmapne : xs.map norm360 ≠ [] := by simpa using hne
  have hlne : sortQ (xs.map norm360) ≠ [] := by
    intro h
    apply hmapne
    have hp := sortQ_perm (xs.map norm360)
    rw [h] at hp
    exact hp.symm.eq_nil
  have hbounds : ∀ z ∈ sortQ (xs.map norm360), 0 ≤ z ∧ z < 360 := by
    intro z hz
    have hz2 : z ∈ xs.map norm360 := (sortQ_perm _).mem_iff.mp hz
    obtain ⟨y, _, rfl⟩ := List.mem_map.mp hz2
    exact ⟨norm360_nonneg y, norm360_lt y⟩
  rw [circularSpanDeg_eq_spanOfSorted xs hne,
    spanOfSorted_eq_spanSpec (sortQ_sorted _) hlne hbounds,
    spanSpec_perm (sortQ_perm _), spanSpec_map_norm360]

theorem sortQnorm_ne_nil {xs : List ℚ} (hne : xs ≠ []) : sortQ (xs.map norm360) ≠ [] := by
  intro h
  apply hne
  have hp := sortQ_perm (xs.map norm360)
  rw [h] at hp
  have := hp.symm.eq_nil
  exact List.map_eq_nil_iff.mp this

theorem sortQnorm_bounds (xs : List ℚ) : ∀ z ∈ sortQ (xs.map norm360), 0 ≤ z ∧ z < 360 := by
  intro z hz
  have hz2 : z ∈ xs.map norm360 := (sortQ_perm _).mem_iff.mp hz
  obtain ⟨y, _, rfl⟩ := List.mem_map.mp hz2
  exact ⟨norm360_nonneg y, norm360_lt y⟩

theorem circularSpanDeg_nil : circularSpanDeg [] = 0 := by
  rw [circularSpanDeg, if_pos rfl]

theorem circularSpanDeg_singleton (x : ℚ) : circularSpanDeg [x] = 0 := by
  rw [circularSpanDeg_eq_spanOfSorted [x] (by simp)]
  have h : sortQ ([x].map norm360) = [norm360 x] := rfl
  rw [h, spanOfSorted_singleton]

theorem circular_span_deg_nil : circular_span_deg [] = none := rfl

theorem circular_span_deg_eq_some {xs : List ℚ} (hne : xs ≠ []) :
    circular_span_deg xs = some (circularSpanDeg xs) := by
  rw [circularSpanDeg_eq_spanOfSorted xs hne]
  cases h : sortQ (xs.map norm360) with
  | nil => exact absurd h (sortQnorm_ne_nil hne)
  | cons x l =>
    rw [circular_span_deg, h]
    rfl

theorem spanOfSorted_bounds {l : List ℚ} (hs : l.Sorted (· ≤ ·))
    (hb : ∀ z ∈ l, 0 ≤ z ∧ z < 360) (hlen : 2 ≤ l.length) :
    0 ≤ spanOfSorted l ∧ spanOfSorted l ≤ 360 * ((l.length : ℚ) - 1) / l.length := by
  cases l with
  | nil => simp at hlen
  | cons x xs =>
    have hne : (x :: xs) ≠ [] := by simp
    have hw0 : 0 ≤ (x :: xs).headI + 360 - (x :: xs).getLastD 0 := by
      obtain ⟨hx0, _⟩ := hb x (List.mem_cons_self _ _)
      obtain ⟨_, hl1⟩ := hb _ (getLastD_mem hne)
      have : (x :: xs).headI = x := rfl
      rw [this]
      linarith
    have hGnonneg : ∀ g ∈ consGaps (x :: xs) ++ [(x :: xs).headI + 360 - (x :: xs).getLastD 0],
        0 ≤ g := by
      intro g hg
      rcases List.mem_append.mp hg with h | h
      · exact consGaps_nonneg hs g h
      · rw [List.mem_singleton.mp h]
        exact hw0
    have hsum : (consGaps (x :: xs) ++ [(x :: xs).headI + 360 - (x :: xs).getLastD 0]).sum
        = 360 := by
      rw [List.sum_append, consGaps_sum, List.sum_singleton]
      have : (x :: xs).headI = x := rfl
      rw [this]
      ring
    have hGne : consGaps (x :: xs) ++ [(x :: xs).headI + 360 - (x :: xs).getLastD 0] ≠ [] := by
      simp
    have hmax_mem := maxList_mem hGne
    constructor
    · -- the largest gap is at most the sum of the gaps, which is 360
      have h1 := List.single_le_sum hGnonneg _ hmax_mem
      rw [hsum] at h1
      rw [spanOfSorted]
      linarith
    · -- the largest gap is at least the average gap 360 / n
      have hcard := List.sum_le_card_nsmul
        (consGaps (x :: xs) ++ [(x :: xs).headI + 360 - (x :: xs).getLastD 0])
        (maxList _) (fun b hb => le_maxList hb)
      rw [hsum] at hcard
      have hlenG : (consGaps (x :: xs) ++
          [(x :: xs).headI + 360 - (x :: xs).getLastD 0]).length = (x :: xs).length := by
        rw [List.length_append, consGaps_length, List.length_singleton, List.length_cons]
      rw [hlenG, nsmul_eq_mul] at hcard
      have hnpos : (0:ℚ) < ((x :: xs).length : ℚ) := by
        have : 0 < (x :: xs).length := by simp
        exact_mod_cast this
      rw [spanOfSorted, le_div_iff₀ hnpos]
      nlinarith [hcard]

/-- The list of `n` evenly spaced angles `360*k/n`, `k = 0, …, n-1`. -/
def evenlySpaced (n : ℕ) : List ℚ :=
  (List.range n).map fun k : ℕ => 360 * (k : ℚ) / (n : ℚ)

theorem consGaps_concat {xs : List ℚ} (hne : xs ≠ []) (y : ℚ) :
    consGaps (xs ++ [y]) = consGaps xs ++ [y - xs.getLastD 0] := by
  induction xs with
  | nil => exact absurd rfl hne
  | cons x t ih =>
    cases t with
    | nil =>
      have h1 : consGaps ([x] ++ [y]) = [y - x] := rfl
      have h2 : consGaps [x] = [] := rfl
      have h3 : [x].getLastD 0 = x := rfl
      rw [h1, h2, h3, List.nil_append]
    | cons z zs =>
      have h0 : (x :: z :: zs) ++ [y] = x :: ((z :: zs) ++ [y]) := rfl
      rw [h0]
      have h1 : (z :: zs) ++ [y] = z :: (zs ++ [y]) := rfl
      have h2 : consGaps (x :: z :: (zs ++ [y])) = (z - x) :: consGaps (z :: (zs ++ [y])) :=
        consGaps_cons_cons _ _ _
      rw [h1, h2, ← h1, ih (by simp)]
      rw [consGaps_cons_cons, getLastD_cons_cons]
      rfl

theorem evenlySpaced_mem_bounds {n : ℕ} (hn : 1 ≤ n) {z : ℚ} (hz : z ∈ evenlySpaced n) :
    0 ≤ z ∧ z < 360 := by
  rw [evenlySpaced] at hz
  obtain ⟨k, hk, rfl⟩ := List.mem_map.mp hz
  rw [List.mem_range] at hk
  have hnpos : (0:ℚ) < (n : ℚ) := by exact_mod_cast Nat.pos_of_ne_zero (by omega)
  constructor
  · positivity
  · rw [div_lt_iff₀ hnpos]
    have : (k : ℚ) < (n : ℚ) := by exact_mod_cast hk
    nlinarith

theorem evenlySpaced_sorted (n : ℕ) : (evenlySpaced n).Sorted (· ≤ ·) := by
  rw [evenlySpaced]
  refine (List.sorted_lt_range n).map _ ?_
  intro a b hab
  have hab' : (a : ℚ) ≤ (b : ℚ) := by exact_mod_cast le_of_lt hab
  rcases Nat.eq_zero_or_pos n with h | h
  · subst h
    norm_num
  · have hnpos : (0:ℚ) < (n : ℚ) := by exact_mod_cast h
    rw [div_le_div_iff_of_pos_right hnpos]
    linarith

theorem evenlySpaced_norm360 (n : ℕ) (hn : 1 ≤ n) :
    (evenlySpaced n).map norm360 = evenlySpaced n := by
  refine List.map_congr_left ?_ |>.trans (List.map_id _)
  intro a ha
  obtain ⟨h0, h1⟩ := evenlySpaced_mem_bounds hn ha
  exact norm360_eq_self h0 h1

theorem evenly_aux (n : ℕ) (hnpos : 1 ≤ n) :
    ∀ m : ℕ, 1 ≤ m →
      consGaps ((List.range m).map fun k : ℕ => 360 * (k : ℚ) / (n : ℚ)) =
          List.replicate (m - 1) (360 / (n : ℚ)) ∧
      ((List.range m).map fun k : ℕ => 360 * (k : ℚ) / (n : ℚ)).getLastD 0 =
          360 * ((m : ℚ) - 1) / (n : ℚ) := by
  have hne0 : (n : ℚ) ≠ 0 := by
    have : 0 < n := hnpos
    positivity
  intro m
  induction m with
  | zero => intro h; omega
  | succ m ih =>
    intro _
    rcases Nat.eq_zero_or_pos m with hm | hm
    · subst hm
      have hr : List.range 1 = [0] := rfl
      rw [hr]
      constructor
      · rw [List.map_singleton, consGaps_singleton]
        rfl
      · rw [List.map_singleton, List.getLastD_cons]
        norm_num
    · obtain ⟨ih1, ih2⟩ := ih hm
      have hrange : List.range (m + 1) = List.range m ++ [m] := List.range_succ m
      rw [hrange, List.map_append, List.map_singleton]
      have hmapne : (List.range m).map (fun k : ℕ => 360 * (k : ℚ) / (n : ℚ)) ≠ [] := by
        intro h
        rw [List.map_eq_nil_iff, List.range_eq_nil] at h
        omega
      constructor
      · rw [consGaps_concat hmapne, ih1, ih2]
        have hgap : 360 * (m : ℚ) / (n : ℚ) - 360 * ((m : ℚ) - 1) / (n : ℚ) = 360 / (n : ℚ) := by
          field_simp
          ring
        rw [hgap]
        have h2 : m - 1 + 1 = m + 1 - 1 := by omega
        rw [← List.replicate_succ', h2]
      · rw [List.getLastD_concat]
        push_cast
        ring

theorem evenlySpaced_ne_nil {n : ℕ} (hn : 1 ≤ n) : evenlySpaced n ≠ [] := by
  rw [evenlySpaced]
  intro h
  rw [List.map_eq_nil_iff, List.range_eq_nil] at h
  omega

theorem evenlySpaced_headI {n : ℕ} (hn : 1 ≤ n) : (evenlySpaced n).headI = 0 := by
  cases n with
  | zero => omega
  | succ m =>
    rw [evenlySpaced, List.range_succ_eq_map, List.map_cons]
    show (360 : ℚ) * ((0:ℕ) : ℚ) / ((m+1 : ℕ) : ℚ) = 0
    norm_num

theorem circularSpanDeg_evenlySpaced (n : ℕ) (hn : 2 ≤ n) :
    circularSpanDeg (evenlySpaced n) = 360 * ((n : ℚ) - 1) / (n : ℚ) := by
  have h1 : 1 ≤ n := by omega
  have hne0 : (n : ℚ) ≠ 0 := by
    have : 0 < n := h1
    positivity
  have hne := evenlySpaced_ne_nil h1
  have hsorteq : sortQ ((evenlySpaced n).map norm360) = evenlySpaced n := by
    rw [evenlySpaced_norm360 n h1]
    exact (evenlySpaced_sorted n).insertionSort_eq
  rw [circularSpanDeg_eq_spanOfSorted _ hne, hsorteq]
  obtain ⟨hgaps, hlast⟩ := evenly_aux n h1 n h1
  have hgaps' : consGaps (evenlySpaced n) = List.replicate (n - 1) (360 / (n : ℚ)) := hgaps
  have hlast' : (evenlySpaced n).getLastD 0 = 360 * ((n : ℚ) - 1) / (n : ℚ) := hlast
  rw [spanOfSorted, hgaps', hlast', evenlySpaced_headI h1]
  have hw : (0 : ℚ) + 360 - 360 * ((n : ℚ) - 1) / (n : ℚ) = 360 / (n : ℚ) := by
    field_simp
    ring
  rw [hw]
  have hmax : maxList (List.replicate (n - 1) (360 / (n : ℚ)) ++ [360 / (n : ℚ)])
      = 360 / (n : ℚ) := by
    refine maxList_all_eq (by simp) ?_
    intro b hb
    rcases List.mem_append.mp hb with h | h
    · exact List.eq_of_mem_replicate h
    · exact List.mem_singleton.mp h
  rw [hmax]
  field_simp
  ring

theorem spanSpec_shift (xs : List ℚ) (c : ℚ) :
    spanSpec (xs.map fun x => x + c) = spanSpec xs := by
  rw [spanSpec, spanSpec, List.map_map]
  congr 1
  refine List.map_congr_left ?_
  intro a _
  show maxList ((xs.map fun x => x + c).map fun y => cdist (a + c) y)
      = maxList (xs.map fun y => cdist a y)
  rw [List.map_map]
  congr 1
  refine List.map_congr_left ?_
  intro b _
  show cdist (a + c) (b + c) = cdist a b
  exact cdist_shift a b c

theorem circularSpanDeg_shift (xs : List ℚ) (c : ℚ) :
    circularSpanDeg (xs.map fun x => x + c) = circularSpanDeg xs := by
  cases xs with
  | nil => rfl
  | cons a as =>
    have hne : (a :: as) ≠ [] := by simp
    have hne2 : ((a :: as).map fun x => x + c) ≠ [] := by simp
    rw [circularSpanDeg_eq_spanSpec _ hne2, circularSpanDeg_eq_spanSpec _ hne]
    exact spanSpec_shift _ c

theorem circularSpanDeg_perm {xs ys : List ℚ} (hp : xs.Perm ys) :
    circularSpanDeg ys = circularSpanDeg xs := by
  cases xs with
  | nil =>
    rw [hp.symm.eq_nil]
  | cons a as =>
    have hne : (a :: as) ≠ [] := by simp
    have hne2 : ys ≠ [] := by
      intro h
      subst h
      exact absurd hp.eq_nil (by simp)
    rw [circularSpanDeg_eq_spanSpec _ hne2, circularSpanDeg_eq_spanSpec _ hne]
    exact spanSpec_perm hp.symm

theorem evenlySpaced_two : evenlySpaced 2 = [0, 180] := by
  have hr : List.range 2 = [0, 1] := rfl
  rw [evenlySpaced, hr, List.map_cons, List.map_singleton]
  norm_num

theorem evenlySpaced_four : evenlySpaced 4 = [0, 90, 180, 270] := by
  have hr : List.range 4 = [0, 1, 2, 3] := rfl
  rw [evenlySpaced, hr, List.map_cons, List.map_cons, List.map_cons, List.map_singleton]
  norm_num

theorem circularSpanDeg_antipodal (a : ℚ) : circularSpanDeg [a, a + 180] = 180 := by
  have hlist : ([(0 : ℚ), 180].map fun x => x + a) = [a, a + 180] := by
    rw [List.map_cons, List.map_singleton]
    norm_num [add_comm]
  calc circularSpanDeg [a, a + 180]
      = circularSpanDeg ([(0 : ℚ), 180].map fun x => x + a) := by rw [hlist]
    _ = circularSpanDeg [(0 : ℚ), 180] := circularSpanDeg_shift _ a
    _ = 180 := by
        rw [← evenlySpaced_two, circularSpanDeg_evenlySpaced 2 (le_refl 2)]
        norm_num

theorem evenlySpaced_three : evenlySpaced 3 = [0, 120, 240] := by
  have hr : List.range 3 = [0, 1, 2] := rfl
  rw [evenlySpaced, hr, List.map_cons, List.map_cons, List.map_singleton]
  norm_num

theorem circularSpanDeg_bounds (xs : List ℚ) (hlen : 2 ≤ xs.length) :
    0 ≤ circularSpanDeg xs ∧
      circularSpanDeg xs ≤ 360 * ((xs.length : ℚ) - 1) / (xs.length : ℚ) := by
  have hne : xs ≠ [] := by
    intro h
    subst h
    simp at hlen
  rw [circularSpanDeg_eq_spanOfSorted xs hne]
  have hlenl : (sortQ (xs.map norm360)).length = xs.length := by
    rw [sortQ_length, List.length_map]
  have h := spanOfSorted_bounds (sortQ_sorted _) (sortQnorm_bounds xs)
    (by rw [hlenl]; exact hlen)
  rwa [hlenl] at h

theorem circularSpanDeg_short (xs : List ℚ) (h : xs.length ≤ 1) : circularSpanDeg xs = 0 := by
  cases xs with
  | nil => exact circularSpanDeg_nil
  | cons a as =>
    cases as with
    | nil => exact circularSpanDeg_singleton a
    | cons b bs => simp at h

/-- Python `int(...)` applied to a float: truncation toward zero. -/
def truncQ (x : ℚ) : ℤ := if x < 0 then -qfloor (-x) else qfloor x

theorem truncQ_eq_floor {x : ℚ} (h : 0 ≤ x) : truncQ x = ⌊x⌋ := by
  rw [truncQ, if_neg (not_lt.mpr h), qfloor_eq]

theorem fdiv_eq_floor (a : ℤ) (b : ℕ) : Int.fdiv a ((b : ℕ) : ℤ) = ⌊(a : ℚ) / ((b : ℕ) : ℚ)⌋ := by
  rw [Rat.floor_intCast_div_natCast a b, Int.fdiv_eq_ediv]
  exact Int.ofNat_nonneg b

/-- Embeds `jd_from_datetime` from `src/eclipse2.py`.  Python `//` on integers
is floor division (`Int.fdiv`), `int(...)` truncates toward zero (`truncQ`).
The argument is a Python `datetime`, whose fields always satisfy
`1 ≤ year ≤ 9999`, `1 ≤ month ≤ 12`, `1 ≤ day ≤ 31`, `0 ≤ hour < 24`,
`0 ≤ minute < 60`. -/
def jd_from_datetime (year month day hour minute : ℤ) : ℚ :=
  let d : ℚ := (day : ℚ) + ((hour : ℚ) + (minute : ℚ) / 60) / 24
  let y : ℤ := if month ≤ 2 then year - 1 else year
  let m : ℤ := if month ≤ 2 then month + 12 else month
  let A : ℤ := Int.fdiv y 100
  let B : ℤ := 2 - A + Int.fdiv A 4
  ((truncQ ((365.25 : ℚ) * ((y : ℚ) + 4716))) : ℚ)
    + ((truncQ ((30.6001 : ℚ) * ((m : ℚ) + 1))) : ℚ) + d + (B : ℚ) - 1524.5

/-- Modelled from the specification text of §4.2: the standard Julian-Day
algorithm, with mathematical floors throughout, against which
`jd_from_datetime` is compared. -/
def jd_spec (year month day hour minute : ℤ) : ℚ :=
  let d : ℚ := (day : ℚ) + ((hour : ℚ) + (minute : ℚ) / 60) / 24
  let y : ℤ := if month ≤ 2 then year - 1 else year
  let m : ℤ := if month ≤ 2 then month + 12 else month
  let A : ℤ := ⌊(y : ℚ) / 100⌋
  let B : ℤ := 2 - A + ⌊(A : ℚ) / 4⌋
  ((⌊(365.25 : ℚ) * ((y : ℚ) + 4716)⌋ : ℤ) : ℚ)
    + ((⌊(30.6001 : ℚ) * ((m : ℚ) + 1)⌋ : ℤ) : ℚ) + d + (B : ℚ) - 1524.5

theorem jd_eq_spec (year month day hour minute : ℤ) (hy : 1 ≤ year)
    (hm1 : 1 ≤ month) (hm2 : month ≤ 12) :
    jd_from_datetime year month day hour minute = jd_spec year month day hour minute := by
  simp only [jd_from_datetime, jd_spec]
  have hyv : (0 : ℤ) ≤ (if month ≤ 2 then year - 1 else year) := by
    split <;> omega
  have hmv : (1 : ℤ) ≤ (if month ≤ 2 then month + 12 else month) := by
    split <;> omega
  set yv := (if month ≤ 2 then year - 1 else year) with hyv_def
  set mv := (if month ≤ 2 then month + 12 else month) with hmv_def
  have hyq : (0 : ℚ) ≤ (yv : ℚ) := by exact_mod_cast hyv
  have hmq : (1 : ℚ) ≤ (mv : ℚ) := by exact_mod_cast hmv
  have h1 : truncQ ((365.25 : ℚ) * ((yv : ℚ) + 4716)) = ⌊(365.25 : ℚ) * ((yv : ℚ) + 4716)⌋ :=
    truncQ_eq_floor (by nlinarith)
  have h2 : truncQ ((30.6001 : ℚ) * ((mv : ℚ) + 1)) = ⌊(30.6001 : ℚ) * ((mv : ℚ) + 1)⌋ :=
    truncQ_eq_floor (by nlinarith)
  have h3 : Int.fdiv yv 100 = ⌊(yv : ℚ) / 100⌋ := by
    have h := fdiv_eq_floor yv 100
    norm_num at h
    exact h
  rw [h1, h2, h3]
  have h4 : Int.fdiv ⌊(yv : ℚ) / 100⌋ 4 = ⌊((⌊(yv : ℚ) / 100⌋ : ℤ) : ℚ) / 4⌋ := by
    have h := fdiv_eq_floor ⌊(yv : ℚ) / 100⌋ 4
    norm_num at h
    exact h
  rw [h4]

theorem jd_epoch : jd_from_datetime 2000 1 1 12 0 = 2451545 := by
  have e3 : Int.fdiv 1999 100 = 19 := by decide
  have e4 : Int.fdiv 19 4 = 4 := by decide
  simp only [jd_from_datetime]
  norm_num
  have f1 : truncQ ((9810615 : ℚ) / 4) = 2452653 := by
    rw [truncQ_eq_floor (by norm_num)]
    rw [Int.floor_eq_iff]
    constructor <;> norm_num
  have f2 : truncQ ((2142007 : ℚ) / 5000) = 428 := by
    rw [truncQ_eq_floor (by norm_num)]
    rw [Int.floor_eq_iff]
    constructor <;> norm_num
  rw [f1, f2, e3, e4]
  push_cast
  norm_num

/-- Embeds the `Elements` dataclass of `src/eclipse2.py`. -/
structure Elements where
  epoch_jd : ℚ
  a_km : ℚ
  Omega_deg : ℚ
  w_deg : ℚ
  M_deg : ℚ

/-- Embeds `mean_longitude` from `src/eclipse2.py`:
`math.radians((el.Omega_deg + el.w_deg + el.M_deg) % 360)`.  The Python
`math.radians(x)` is `x * (pi / 180)`, a real number. -/
noncomputable def mean_longitude (el : Elements) : ℝ :=
  ((norm360 (el.Omega_deg + el.w_deg + el.M_deg) : ℚ) : ℝ) * (Real.pi / 180)

theorem mean_longitude_example_value :
    mean_longitude ⟨0, 1, 90, 0, 0⟩ = (90 : ℝ) * (Real.pi / 180) := by
  rw [mean_longitude]
  have h : norm360 ((90 : ℚ) + 0 + 0) = 90 := by
    rw [show (90 : ℚ) + 0 + 0 = 90 by ring]
    exact norm360_eq_self (by norm_num) (by norm_num)
  show ((norm360 ((90 : ℚ) + 0 + 0) : ℚ) : ℝ) * (Real.pi / 180) = (90 : ℝ) * (Real.pi / 180)
  rw [h]
  norm_num

/-- Embeds the candidate-generation loop of `main` in `src/eclipse2.py`:
`for k in range(-200, 200): t = t0 + (lam[ref] - lam[seed] + 2*math.pi*k) / (n[seed] - n[ref])`,
keeping the `t` that fall inside the search window.  A Python float division
whose denominator equals zero raises `ZeroDivisionError`, modelled by the
error branch taken before the division is used. -/
noncomputable def gen_candidates (t0 lam_ref lam_seed n_seed n_ref lo hi : ℝ) :
    Except String (List ℝ) :=
  (List.range 400).foldlM
    (fun (cand : List ℝ) (i : ℕ) =>
      let k : ℤ := (i : ℤ) - 200
      if n_seed - n_ref = 0 then Except.error "float division by zero"
      else
        let t := t0 + (lam_ref - lam_seed + 2 * Real.pi * (k : ℝ)) / (n_seed - n_ref)
        Except.ok (if lo ≤ t ∧ t ≤ hi then cand ++ [t] else cand))
    []

theorem gen_candidates_equal_motion (t0 lr ls n lo hi : ℝ) :
    gen_candidates t0 lr ls n n lo hi = Except.error "float division by zero" := by
  rw [gen_candidates]
  rw [show (400 : ℕ) = 399 + 1 from rfl, List.range_succ_eq_map]
  rw [List.foldlM_cons]
  rw [if_pos (sub_self n)]
  rfl

theorem mean_longitude_bounds (el : Elements) :
    0 ≤ mean_longitude el ∧ mean_longitude el < 2 * Real.pi := by
  rw [mean_longitude]
  have h0 : (0 : ℝ) ≤ ((norm360 (el.Omega_deg + el.w_deg + el.M_deg) : ℚ) : ℝ) := by
    exact_mod_cast norm360_nonneg _
  have h1 : ((norm360 (el.Omega_deg + el.w_deg + el.M_deg) : ℚ) : ℝ) < 360 := by
    exact_mod_cast norm360_lt _
  have hpi := Real.pi_pos
  constructor
  · positivity
  · nlinarith

/-- Embeds the `PLANET_IDS` table shared by `src/ecliptic/basic_scan.py` and
`src/eclipse2.py` (insertion-ordered, as a Python dict is). -/
def PLANET_IDS : List (String × String) :=
  [("Mercury", "199"), ("Venus", "299"), ("Mars", "499"), ("Jupiter", "599"),
    ("Saturn", "699"), ("Uranus", "799"), ("Neptune", "899")]

/-- The keys of `PLANET_IDS` (what `p in PLANET_IDS` and
`list(PLANET_IDS.keys())` see). -/
def planetKeys : List String := PLANET_IDS.map Prod.fst

/-- Python `repr` of a list of strings, as f-string interpolation renders
`list(PLANET_IDS.keys())` inside the error message. -/
def pyStrListRepr (l : List String) : String :=
  "[" ++ String.intercalate ", "
    (l.map fun s => String.singleton (Char.ofNat 39) ++ s ++ String.singleton (Char.ofNat 39))
    ++ "]"

/-- Embeds the validation loop of `list_planetary_alignments`
(`src/ecliptic/basic_scan.py`, lines 137-139): the first unknown planet name
raises `ValueError` with the full key list advertised. -/
def validatePlanets : List String → Option String
  | [] => none
  | p :: rest =>
    if planetKeys.contains p then validatePlanets rest
    else some ("Unknown planet name: " ++ p ++ ". Available: " ++ pyStrListRepr planetKeys)

/-- Embeds the validation loop of `compute_spans`
(`src/visualize_alignments.py`, lines 20-22), whose message names only the
offending planet. -/
def validatePlotPlanets : List String → Option String
  | [] => none
  | p :: rest =>
    if planetKeys.contains p then validatePlotPlanets rest
    else some ("Unknown planet name: " ++ p)

/-- Embeds the dict access `PLANET_IDS[p]` (only reached after validation). -/
def planetId (p : String) : String := (PLANET_IDS.lookup p).getD ""

/-- The day-by-day loop `while d <= end_day`, with dates as integer day
numbers: the days of `[start_day, end_day]` in increasing order. -/
def daysList (start_day end_day : ℤ) : List ℤ :=
  (List.range (end_day + 1 - start_day).toNat).map fun i : ℕ => start_day + (i : ℤ)

/-- One day's fetched longitudes, in caller planet-list order; `fetch` is the
Ephemeris Provider oracle (body id, day) ↦ longitude. -/
def dayLons (fetch : String → ℤ → ℚ) (planets : List String) (d : ℤ) : List ℚ :=
  planets.map fun p => fetch (planetId p) d

/-- The span computed by the scan for one day. -/
def dailySpan (fetch : String → ℤ → ℚ) (planets : List String) (d : ℤ) : ℚ :=
  circularSpanDeg (dayLons fetch planets d)

/-- The `hits` list built by the scan: days whose span is within the
threshold, paired with their spans, in day order. -/
def scanHits (fetch : String → ℤ → ℚ) (planets : List String) (thr : ℚ)
    (days : List ℤ) : List (ℤ × ℚ) :=
  days.filterMap fun d =>
    if dailySpan fetch planets d ≤ thr then some (d, dailySpan fetch planets d) else none

/-- Embeds the `AlignmentHit` dataclass of `src/ecliptic/basic_scan.py`;
the Python field `end` is called `stop` here (`end` is reserved in Lean). -/
structure AlignmentHit where
  start : ℤ
  stop : ℤ
  planets : List String
  max_span_deg : ℚ
deriving DecidableEq

/-- Embeds the merge loop of `list_planetary_alignments` (lines 164-174):
`cs`, `ce`, `cm` are `cur_start`, `cur_end`, `cur_max_span`. -/
def mergeGo (planets : List String) (cs ce : ℤ) (cm : ℚ) :
    List (ℤ × ℚ) → List AlignmentHit
  | [] => [⟨cs, ce, planets, cm⟩]
  | (d, s) :: rest =>
    if d = ce + 1 then mergeGo planets cs d (max cm s) rest
    else ⟨cs, ce, planets, cm⟩ :: mergeGo planets d d s rest

/-- Embeds `list_planetary_alignments` from `src/ecliptic/basic_scan.py` with
the Ephemeris Provider abstracted as `fetch`.  The second component is the
list of provider calls performed (body id, day), in order: validation
failure raises before the session is opened, so the log is then empty. -/
def list_planetary_alignments (fetch : String → ℤ → ℚ) (start_day end_day : ℤ)
    (planets : List String) (span_threshold_deg : ℚ) :
    Except String (List AlignmentHit) × List (String × ℤ) :=
  match validatePlanets planets with
  | some msg => (Except.error msg, [])
  | none =>
    let log := (daysList start_day end_day).flatMap fun d =>
      planets.map fun p => (planetId p, d)
    match scanHits fetch planets span_threshold_deg (daysList start_day end_day) with
    | [] => (Except.ok [], log)
    | (d, s) :: rest => (Except.ok (mergeGo planets d d s rest), log)

/-- Embeds `compute_spans` from `src/visualize_alignments.py`: after the same
style of validation it returns the days and their spans (no thresholding),
fetching once per planet per day. -/
def compute_spans (fetch : String → ℤ → ℚ) (start_day end_day : ℤ)
    (planets : List String) :
    Except String (List ℤ × List ℚ) × List (String × ℤ) :=
  match validatePlotPlanets planets with
  | some msg => (Except.error msg, [])
  | none =>
    ((Except.ok (daysList start_day end_day,
        (daysList start_day end_day).map (dailySpan fetch planets))),
      (daysList start_day end_day).flatMap fun d =>
        planets.map fun p => (planetId p, d))

theorem validatePlanets_fails : ∀ {ps : List String},
    (∃ p ∈ ps, planetKeys.contains p = false) →
    ∃ p, planetKeys.contains p = false ∧
      validatePlanets ps =
        some ("Unknown planet name: " ++ p ++ ". Available: " ++ pyStrListRepr planetKeys) := by
  intro ps
  induction ps with
  | nil => rintro ⟨p, hp, _⟩; cases hp
  | cons q qs ih =>
    rintro ⟨p, hp, hpf⟩
    by_cases hq : planetKeys.contains q
    · have : ∃ p ∈ qs, planetKeys.contains p = false := by
        rcases List.mem_cons.mp hp with rfl | h2
        · rw [hq] at hpf; cases hpf
        · exact ⟨p, h2, hpf⟩
      obtain ⟨r, hr1, hr2⟩ := ih this
      exact ⟨r, hr1, by rw [validatePlanets, if_pos hq]; exact hr2⟩
    · refine ⟨q, by simpa using hq, ?_⟩
      rw [validatePlanets, if_neg hq]

theorem validatePlotPlanets_fails : ∀ {ps : List String},
    (∃ p ∈ ps, planetKeys.contains p = false) →
    ∃ p, planetKeys.contains p = false ∧
      validatePlotPlanets ps = some ("Unknown planet name: " ++ p) := by
  intro ps
  induction ps with
  | nil => rintro ⟨p, hp, _⟩; cases hp
  | cons q qs ih =>
    rintro ⟨p, hp, hpf⟩
    by_cases hq : planetKeys.contains q
    · have : ∃ p ∈ qs, planetKeys.contains p = false := by
        rcases List.mem_cons.mp hp with rfl | h2
        · rw [hq] at hpf; cases hpf
        · exact ⟨p, h2, hpf⟩
      obtain ⟨r, hr1, hr2⟩ := ih this
      exact ⟨r, hr1, by rw [validatePlotPlanets, if_pos hq]; exact hr2⟩
    · refine ⟨q, by simpa using hq, ?_⟩
      rw [validatePlotPlanets, if_neg hq]

set_option maxRecDepth 40000 in
theorem advertises_all_keys (p : String) :
    ∀ v ∈ planetKeys, v.data <:+:
      ("Unknown planet name: " ++ p ++ ". Available: " ++ pyStrListRepr planetKeys).data := by
  have hconc : ∀ v ∈ planetKeys, v.data <:+: (pyStrListRepr planetKeys).data := by
    decide
  intro v hv
  refine (hconc v hv).trans ?_
  rw [String.data_append]
  exact (List.suffix_append _ _).isInfix

theorem daysList_mem {lo hi d : ℤ} : d ∈ daysList lo hi ↔ lo ≤ d ∧ d ≤ hi := by
  rw [daysList]
  constructor
  · intro h
    obtain ⟨i, hi', rfl⟩ := List.mem_map.mp h
    rw [List.mem_range] at hi'
    omega
  · rintro ⟨h1, h2⟩
    refine List.mem_map.mpr ⟨(d - lo).toNat, ?_, ?_⟩
    · rw [List.mem_range]; omega
    · omega

theorem daysList_pairwise (lo hi : ℤ) : (daysList lo hi).Pairwise (· < ·) := by
  rw [daysList]
  refine (List.sorted_lt_range _).map _ ?_
  intro a b hab
  omega

theorem scanHits_sound {fetch : String → ℤ → ℚ} {planets : List String} {thr : ℚ}
    {days : List ℤ} :
    ∀ p ∈ scanHits fetch planets thr days,
      p.1 ∈ days ∧ p.2 = dailySpan fetch planets p.1 ∧ p.2 ≤ thr := by
  intro p hp
  rw [scanHits] at hp
  obtain ⟨d, hd, hfd⟩ := List.mem_filterMap.mp hp
  by_cases h : dailySpan fetch planets d ≤ thr
  · rw [if_pos h] at hfd
    have := Option.some.inj hfd
    subst this
    exact ⟨hd, rfl, h⟩
  · rw [if_neg h] at hfd
    cases hfd

theorem scanHits_pairwise {fetch : String → ℤ → ℚ} {planets : List String} {thr : ℚ}
    {days : List ℤ} (hd : days.Pairwise (· < ·)) :
    (scanHits fetch planets thr days).Pairwise (fun p q => p.1 < q.1) := by
  rw [scanHits, List.pairwise_filterMap]
  refine hd.imp_of_mem ?_
  intro a b _ _ hab
  intro x hx y hy
  have hxa : x.1 = a := by
    by_cases h : dailySpan fetch planets a ≤ thr
    · rw [if_pos h] at hx
      rw [← Option.some.inj (Option.mem_def.mp hx)]
    · rw [if_neg h] at hx
      cases hx
  have hyb : y.1 = b := by
    by_cases h : dailySpan fetch planets b ≤ thr
    · rw [if_pos h] at hy
      rw [← Option.some.inj (Option.mem_def.mp hy)]
    · rw [if_neg h] at hy
      cases hy
  rw [hxa, hyb]
  exact hab

theorem mergeGo_spec (fetch : String → ℤ → ℚ) (planets : List String) (thr : ℚ) (lo hi : ℤ) :
    ∀ (h : List (ℤ × ℚ)) (cs ce : ℤ) (cm : ℚ),
    (∀ p ∈ h, p.2 = dailySpan fetch planets p.1 ∧ p.2 ≤ thr ∧ lo ≤ p.1 ∧ p.1 ≤ hi) →
    h.Pairwise (fun p q => p.1 < q.1) →
    (∀ p ∈ h, ce < p.1) →
    cs ≤ ce →
    (∀ d, cs ≤ d → d ≤ ce → dailySpan fetch planets d ≤ thr ∧ lo ≤ d ∧ d ≤ hi) →
    (∀ d, cs ≤ d → d ≤ ce → dailySpan fetch planets d ≤ cm) →
    (∃ d, cs ≤ d ∧ d ≤ ce ∧ dailySpan fetch planets d = cm) →
    (∀ itv ∈ mergeGo planets cs ce cm h,
        itv.planets = planets ∧ cs ≤ itv.start ∧ itv.start ≤ itv.stop ∧
        lo ≤ itv.start ∧ itv.stop ≤ hi ∧
        (∀ d, itv.start ≤ d → d ≤ itv.stop →
          dailySpan fetch planets d ≤ thr ∧ dailySpan fetch planets d ≤ itv.max_span_deg) ∧
        (∃ d, itv.start ≤ d ∧ d ≤ itv.stop ∧ dailySpan fetch planets d = itv.max_span_deg)) ∧
      (mergeGo planets cs ce cm h).Pairwise (fun a b => a.stop + 2 ≤ b.start) := by
  intro h
  induction h with
  | nil =>
    intro cs ce cm _ _ _ hce hrun hbnd hatt
    have hm : mergeGo planets cs ce cm [] = [⟨cs, ce, planets, cm⟩] := rfl
    rw [hm]
    constructor
    · intro itv hitv
      rw [List.mem_singleton] at hitv
      subst hitv
      exact ⟨rfl, le_refl _, hce, (hrun cs (le_refl _) hce).2.1,
        (hrun ce hce (le_refl _)).2.2,
        fun d h1 h2 => ⟨(hrun d h1 h2).1, hbnd d h1 h2⟩, hatt⟩
    · exact List.pairwise_singleton _ _
  | cons p rest ih =>
    obtain ⟨d, s⟩ := p
    intro cs ce cm hsound hpw hgt hce hrun hbnd hatt
    obtain ⟨hs_eq, hs_le, hs_lo, hs_hi⟩ := hsound (d, s) (List.mem_cons_self _ _)
    have hpw2 := List.pairwise_cons.mp hpw
    have hrest_sound : ∀ p ∈ rest,
        p.2 = dailySpan fetch planets p.1 ∧ p.2 ≤ thr ∧ lo ≤ p.1 ∧ p.1 ≤ hi :=
      fun p hp => hsound p (List.mem_cons_of_mem _ hp)
    have hd_gt : ce < d := hgt (d, s) (List.mem_cons_self _ _)
    have hmatch : mergeGo planets cs ce cm ((d, s) :: rest)
        = if d = ce + 1 then mergeGo planets cs d (max cm s) rest
          else ⟨cs, ce, planets, cm⟩ :: mergeGo planets d d s rest := rfl
    by_cases hdc : d = ce + 1
    · rw [hmatch, if_pos hdc]
      refine ih cs d (max cm s) hrest_sound hpw2.2 (fun q hq => hpw2.1 q hq)
        (by omega) ?_ ?_ ?_
      · intro x h1 h2
        by_cases hx : x ≤ ce
        · exact hrun x h1 hx
        · have hxd : x = d := by omega
          subst hxd
          exact ⟨by rw [← hs_eq]; exact hs_le, hs_lo, hs_hi⟩
      · intro x h1 h2
        by_cases hx : x ≤ ce
        · exact le_trans (hbnd x h1 hx) (le_max_left _ _)
        · have hxd : x = d := by omega
          subst hxd
          exact le_trans (le_of_eq hs_eq.symm) (le_max_right _ _)
      · rcases max_choice cm s with hmx | hmx
        · obtain ⟨d0, ha, hb, hc⟩ := hatt
          exact ⟨d0, ha, by omega, by rw [hmx]; exact hc⟩
        · exact ⟨d, by omega, le_refl _, by rw [hmx]; exact hs_eq.symm⟩
    · have hd2 : ce + 2 ≤ d := by omega
      rw [hmatch, if_neg hdc]
      have hrest := ih d d s hrest_sound hpw2.2 (fun q hq => hpw2.1 q hq) (le_refl d)
        (fun x h1 h2 => by
          have hx : x = d := by omega
          subst hx
          exact ⟨by rw [← hs_eq]; exact hs_le, hs_lo, hs_hi⟩)
        (fun x h1 h2 => by
          have hx : x = d := by omega
          subst hx
          exact le_of_eq hs_eq.symm)
        ⟨d, le_refl d, le_refl d, hs_eq.symm⟩
      constructor
      · intro itv hitv
        rcases List.mem_cons.mp hitv with rfl | h2
        · exact ⟨rfl, le_refl _, hce, (hrun cs (le_refl _) hce).2.1,
            (hrun ce hce (le_refl _)).2.2,
            fun x h1 h2 => ⟨(hrun x h1 h2).1, hbnd x h1 h2⟩, hatt⟩
        · obtain ⟨hplan, hdle, hss, hlo', hhi', hday, hattn⟩ := hrest.1 itv h2
          exact ⟨hplan, by omega, hss, hlo', hhi', hday, hattn⟩
      · rw [List.pairwise_cons]
        constructor
        · intro b hb
          have hble := (hrest.1 b hb).2.1
          show ce + 2 ≤ b.start
          omega
        · exact hrest.2

theorem alignments_ok {fetch : String → ℤ → ℚ} {lo hi : ℤ} {planets : List String}
    {thr : ℚ} {res : List AlignmentHit} {log : List (String × ℤ)}
    (h : list_planetary_alignments fetch lo hi planets thr = (Except.ok res, log)) :
    (∀ itv ∈ res, itv.planets = planets ∧ itv.start ≤ itv.stop ∧ lo ≤ itv.start ∧
      itv.stop ≤ hi ∧
      (∀ d, itv.start ≤ d → d ≤ itv.stop →
        dailySpan fetch planets d ≤ thr ∧ dailySpan fetch planets d ≤ itv.max_span_deg) ∧
      (∃ d, itv.start ≤ d ∧ d ≤ itv.stop ∧ dailySpan fetch planets d = itv.max_span_deg)) ∧
    res.Pairwise (fun a b => a.stop + 2 ≤ b.start) := by
  rw [list_planetary_alignments] at h
  cases hv : validatePlanets planets with
  | some msg =>
    rw [hv] at h
    simp at h
  | none =>
    rw [hv] at h
    cases hh : scanHits fetch planets thr (daysList lo hi) with
    | nil =>
      rw [hh] at h
      simp only [Prod.mk.injEq] at h
      obtain ⟨h1, _⟩ := h
      have hres : res = [] := by
        cases res with
        | nil => rfl
        | cons a as => exact absurd (Except.ok.inj h1) (by simp)
      subst hres
      exact ⟨fun itv hitv => absurd hitv (by simp), List.Pairwise.nil⟩
    | cons p rest =>
      obtain ⟨d, s⟩ := p
      rw [hh] at h
      simp only [Prod.mk.injEq] at h
      obtain ⟨h1, _⟩ := h
      have hres : mergeGo planets d d s rest = res := Except.ok.inj h1
      have hs_all : ∀ q ∈ (d, s) :: rest,
          q.2 = dailySpan fetch planets q.1 ∧ q.2 ≤ thr ∧ lo ≤ q.1 ∧ q.1 ≤ hi := by
        intro q hq
        have hq2 : q ∈ scanHits fetch planets thr (daysList lo hi) := by
          rw [hh]; exact hq
        obtain ⟨hmem, he, hle⟩ := scanHits_sound q hq2
        obtain ⟨hl, hr⟩ := daysList_mem.mp hmem
        exact ⟨he, hle, hl, hr⟩
      have hpw : ((d, s) :: rest).Pairwise (fun p q => p.1 < q.1) := by
        rw [← hh]
        exact scanHits_pairwise (daysList_pairwise lo hi)
      have hpw2 := List.pairwise_cons.mp hpw
      obtain ⟨he, hle, hl, hr⟩ := hs_all (d, s) (List.mem_cons_self _ _)
      have := mergeGo_spec fetch planets thr lo hi rest d d s
        (fun q hq => hs_all q (List.mem_cons_of_mem _ hq))
        hpw2.2 (fun q hq => hpw2.1 q hq) (le_refl d)
        (fun x h1 h2 => by
          have hx : x = d := by omega
          subst hx
          exact ⟨by rw [← he]; exact hle, hl, hr⟩)
        (fun x h1 h2 => by
          have hx : x = d := by omega
          subst hx
          exact le_of_eq he.symm)
        ⟨d, le_refl d, le_refl d, he.symm⟩
      rw [hres] at this
      refine ⟨fun itv hitv => ?_, this.2⟩
      obtain ⟨a1, _, a3, a4, a5, a6, a7⟩ := this.1 itv hitv
      exact ⟨a1, a3, a4, a5, a6, a7⟩

theorem alignments_unknown {fetch : String → ℤ → ℚ} {lo hi : ℤ} {planets : List String}
    {thr : ℚ} (h : ∃ p ∈ planets, planetKeys.contains p = false) :
    ∃ msg, list_planetary_alignments fetch lo hi planets thr = (Except.error msg, []) ∧
      ∀ v ∈ planetKeys, v.data <:+: msg.data := by
  obtain ⟨p, _, hmsg⟩ := validatePlanets_fails h
  refine ⟨_, ?_, advertises_all_keys p⟩
  rw [list_planetary_alignments, hmsg]

theorem compute_spans_unknown {fetch : String → ℤ → ℚ} {lo hi : ℤ} {planets : List String}
    (h : ∃ p ∈ planets, planetKeys.contains p = false) :
    ∃ msg, compute_spans fetch lo hi planets = (Except.error msg, []) := by
  obtain ⟨p, _, hmsg⟩ := validatePlotPlanets_fails h
  refine ⟨"Unknown planet name: " ++ p, ?_⟩
  rw [compute_spans, hmsg]

theorem circularSpanDeg_pair_same (c : ℚ) : circularSpanDeg [c, c] = 0 := by
  rw [circularSpanDeg_eq_spanSpec _ (by simp), spanSpec]
  show minList [maxList [cdist c c, cdist c c], maxList [cdist c c, cdist c c]] = 0
  rw [cdist_self]
  have h2 : maxList [(0 : ℚ), 0] = 0 := by
    rw [maxList_cons]
    exact max_self 0
  rw [h2]
  rw [minList_cons]
  exact min_self 0

/-- The fetch oracle used to exercise the scan on a window with a gap:
both planets sit at longitude 0 except that on day 1 Venus sits at 180. -/
def fetchTwoGap : String → ℤ → ℚ :=
  fun b d => if d = 1 then (if b = "199" then 0 else 180) else 0

theorem fetchTwoGap_eval :
    list_planetary_alignments fetchTwoGap 0 2 ["Mercury", "Venus"] 10
      = (Except.ok [⟨0, 0, ["Mercury", "Venus"], 0⟩, ⟨2, 2, ["Mercury", "Venus"], 0⟩],
        [("199", 0), ("299", 0), ("199", 1), ("299", 1), ("199", 2), ("299", 2)]) := by
  have hd0 : dailySpan fetchTwoGap ["Mercury", "Venus"] 0 = 0 := by
    show circularSpanDeg [fetchTwoGap (planetId "Mercury") 0, fetchTwoGap (planetId "Venus") 0] = 0
    rw [show fetchTwoGap (planetId "Mercury") 0 = 0 from rfl,
      show fetchTwoGap (planetId "Venus") 0 = 0 from rfl]
    exact circularSpanDeg_pair_same 0
  have hd1 : dailySpan fetchTwoGap ["Mercury", "Venus"] 1 = 180 := by
    show circularSpanDeg [fetchTwoGap (planetId "Mercury") 1, fetchTwoGap (planetId "Venus") 1]
      = 180
    rw [show fetchTwoGap (planetId "Mercury") 1 = 0 from rfl,
      show fetchTwoGap (planetId "Venus") 1 = 180 from rfl]
    rw [← evenlySpaced_two, circularSpanDeg_evenlySpaced 2 (le_refl 2)]
    norm_num
  have hd2 : dailySpan fetchTwoGap ["Mercury", "Venus"] 2 = 0 := by
    show circularSpanDeg [fetchTwoGap (planetId "Mercury") 2, fetchTwoGap (planetId "Venus") 2] = 0
    rw [show fetchTwoGap (planetId "Mercury") 2 = 0 from rfl,
      show fetchTwoGap (planetId "Venus") 2 = 0 from rfl]
    exact circularSpanDeg_pair_same 0
  have hscan : scanHits fetchTwoGap ["Mercury", "Venus"] 10 [0, 1, 2] = [(0, 0), (2, 0)] := by
    rw [scanHits]
    simp only [List.filterMap_cons, List.filterMap_nil]
    rw [hd0, hd1, hd2]
    rw [if_pos (by norm_num : (0 : ℚ) ≤ 10), if_neg (by norm_num : ¬ (180 : ℚ) ≤ 10),
      if_pos (by norm_num : (0 : ℚ) ≤ 10)]
  rw [list_planetary_alignments]
  rw [show validatePlanets ["Mercury", "Venus"] = none from rfl]
  rw [show daysList 0 2 = [0, 1, 2] from by decide]
  rw [hscan]
  rfl

/-- Claim C1: every interval returned by `list_planetary_alignments` satisfies
`start ≤ end`; every calendar day inside the interval lies in the scanned
window and was a hit whose circular span is at most the threshold; and
`max_span_deg` equals the maximum of the daily spans over the run (it bounds
every daily span and is attained), hence `max_span_deg ≤ threshold`. -/
theorem claim_C1_interval_invariants (fetch : String → ℤ → ℚ) (start_day end_day : ℤ)
    (planets : List String) (thr : ℚ) (res : List AlignmentHit) (log : List (String × ℤ))
    (h : list_planetary_alignments fetch start_day end_day planets thr = (Except.ok res, log)) :
    ∀ itv ∈ res,
      itv.start ≤ itv.stop ∧
      (∀ d, itv.start ≤ d → d ≤ itv.stop →
        start_day ≤ d ∧ d ≤ end_day ∧ dailySpan fetch planets d ≤ thr) ∧
      (∀ d, itv.start ≤ d → d ≤ itv.stop → dailySpan fetch planets d ≤ itv.max_span_deg) ∧
      (∃ d, itv.start ≤ d ∧ d ≤ itv.stop ∧ dailySpan fetch planets d = itv.max_span_deg) ∧
      itv.max_span_deg ≤ thr := by
  intro itv hitv
  obtain ⟨_, hss, hlo, hhi, hday, hatt⟩ := (alignments_ok h).1 itv hitv
  refine ⟨hss, ?_, fun d h1 h2 => (hday d h1 h2).2, hatt, ?_⟩
  · intro d h1 h2
    exact ⟨by omega, by omega, (hday d h1 h2).1⟩
  · obtain ⟨d0, hd1, hd2, hd3⟩ := hatt
    rw [← hd3]
    exact (hday d0 hd1 hd2).1

theorem claim_C1_witness :
    (list_planetary_alignments (fun _ _ => (0 : ℚ)) 0 2 ["Mars"] 10
      = (Except.ok [⟨0, 2, ["Mars"], 0⟩], [("499", 0), ("499", 1), ("499", 2)])) ∧
    ∀ itv ∈ [(⟨0, 2, ["Mars"], 0⟩ : AlignmentHit)],
      itv.start ≤ itv.stop ∧
      (∀ d, itv.start ≤ d → d ≤ itv.stop →
        (0 : ℤ) ≤ d ∧ d ≤ 2 ∧ dailySpan (fun _ _ => (0 : ℚ)) ["Mars"] d ≤ 10) ∧
      (∀ d, itv.start ≤ d → d ≤ itv.stop →
        dailySpan (fun _ _ => (0 : ℚ)) ["Mars"] d ≤ itv.max_span_deg) ∧
      (∃ d, itv.start ≤ d ∧ d ≤ itv.stop ∧
        dailySpan (fun _ _ => (0 : ℚ)) ["Mars"] d = itv.max_span_deg) ∧
      itv.max_span_deg ≤ 10 := by
  have hd : ∀ d : ℤ, dailySpan (fun _ _ => (0 : ℚ)) ["Mars"] d = 0 := by
    intro d
    exact circularSpanDeg_singleton 0
  have hscan : scanHits (fun _ _ => (0 : ℚ)) ["Mars"] 10 [0, 1, 2] = [(0, 0), (1, 0), (2, 0)] := by
    rw [scanHits]
    simp only [List.filterMap_cons, List.filterMap_nil]
    rw [hd 0, hd 1, hd 2]
    rw [if_pos (by norm_num : (0 : ℚ) ≤ 10), if_pos (by norm_num : (0 : ℚ) ≤ 10),
      if_pos (by norm_num : (0 : ℚ) ≤ 10)]
  have heq : list_planetary_alignments (fun _ _ => (0 : ℚ)) 0 2 ["Mars"] 10
      = (Except.ok [⟨0, 2, ["Mars"], 0⟩], [("499", 0), ("499", 1), ("499", 2)]) := by
    rw [list_planetary_alignments]
    rw [show validatePlanets ["Mars"] = none from rfl]
    rw [show daysList 0 2 = [0, 1, 2] from by decide]
    rw [hscan]
    show (Except.ok (mergeGo ["Mars"] 0 0 0 [(1, 0), (2, 0)]), _) = _
    rw [show mergeGo ["Mars"] 0 0 0 [(1, 0), (2, 0)]
        = mergeGo ["Mars"] 0 1 (max 0 0) [(2, 0)] from by
      rw [show mergeGo ["Mars"] 0 0 0 [(1, 0), (2, 0)]
          = if (1 : ℤ) = 0 + 1 then mergeGo ["Mars"] 0 1 (max 0 0) [(2, 0)]
            else ⟨0, 0, ["Mars"], 0⟩ :: mergeGo ["Mars"] 1 1 0 [(2, 0)] from rfl]
      rw [if_pos (by decide : (1 : ℤ) = 0 + 1)]]
    rw [max_self]
    rw [show mergeGo ["Mars"] 0 1 0 [(2, 0)]
        = mergeGo ["Mars"] 0 2 (max 0 0) [] from by
      rw [show mergeGo ["Mars"] 0 1 0 [(2, 0)]
          = if (2 : ℤ) = 1 + 1 then mergeGo ["Mars"] 0 2 (max 0 0) []
            else ⟨0, 1, ["Mars"], 0⟩ :: mergeGo ["Mars"] 2 2 0 [] from rfl]
      rw [if_pos (by decide : (2 : ℤ) = 1 + 1)]]
    rw [max_self]
    rfl
  exact ⟨heq, claim_C1_interval_invariants (fun _ _ => (0 : ℚ)) 0 2 ["Mars"] 10
    [⟨0, 2, ["Mars"], 0⟩] [("499", 0), ("499", 1), ("499", 2)] heq⟩

/-- Claim C2 (counterexample to the original statement): the span of the three
angles 0°, 120°, 240° is 240°, which violates the claimed codomain `[0, 180]`. -/
theorem claim_C2_counterexample : ¬ circularSpanDeg [0, 120, 240] ≤ 180 := by
  rw [← evenlySpaced_three, circularSpanDeg_evenlySpaced 3 (by norm_num)]
  norm_num

/-- Claim C2 (amended): for two or more angles the circular-span function
returns a value in `[0, 360·(n−1)/n]` (so within `[0, 360)`, and within
`[0, 180]` only when `n = 2`), computed as 360 minus the largest gap between
consecutive sorted normalized angles; for one or zero angles it returns 0;
and on non-empty input the `eclipse2` copy of the function computes the same
value. -/
theorem claim_C2_span_range (xs : List ℚ) :
    (2 ≤ xs.length → 0 ≤ circularSpanDeg xs ∧
      circularSpanDeg xs ≤ 360 * ((xs.length : ℚ) - 1) / (xs.length : ℚ)) ∧
    (xs.length ≤ 1 → circularSpanDeg xs = 0) ∧
    (xs ≠ [] → circular_span_deg xs = some (circularSpanDeg xs)) :=
  ⟨fun h => circularSpanDeg_bounds xs h,
    fun h => circularSpanDeg_short xs h,
    fun h => circular_span_deg_eq_some h⟩

theorem claim_C2_witness :
    2 ≤ ([0, 120, 240] : List ℚ).length ∧
    (0 ≤ circularSpanDeg [0, 120, 240] ∧
      circularSpanDeg [0, 120, 240]
        ≤ 360 * ((([0, 120, 240] : List ℚ).length : ℚ) - 1) / (([0, 120, 240] : List ℚ).length : ℚ)) :=
  ⟨by norm_num, (claim_C2_span_range [0, 120, 240]).1 (by norm_num)⟩

/-- Claim C3: `n` evenly spaced angles have circular span `360·(n−1)/n` for
every `n ≥ 2`; in particular a pair of antipodal angles has span 180 and four
evenly spaced angles have span 270. -/
theorem claim_C3_evenly_spaced :
    (∀ n : ℕ, 2 ≤ n →
      circularSpanDeg (evenlySpaced n) = 360 * ((n : ℚ) - 1) / (n : ℚ)) ∧
    (∀ a : ℚ, circularSpanDeg [a, a + 180] = 180) ∧
    circularSpanDeg [(0 : ℚ), 90, 180, 270] = 270 := by
  refine ⟨fun n hn => circularSpanDeg_evenlySpaced n hn, circularSpanDeg_antipodal, ?_⟩
  rw [← evenlySpaced_four, circularSpanDeg_evenlySpaced 4 (by norm_num)]
  norm_num

theorem claim_C3_witness :
    2 ≤ 4 ∧ circularSpanDeg (evenlySpaced 4) = 360 * (((4 : ℕ) : ℚ) - 1) / ((4 : ℕ) : ℚ) :=
  ⟨by norm_num, claim_C3_evenly_spaced.1 4 (by norm_num)⟩

/-- Claim C4: on its domain (the fields of a Python `datetime` always satisfy
`1 ≤ year`, `1 ≤ month ≤ 12`), `jd_from_datetime` computes exactly the
standard floor-based Julian-Day algorithm, and it maps 2000-01-01 12:00 to
exactly 2451545.0. -/
theorem claim_C4_julian_day :
    (∀ year month day hour minute : ℤ, 1 ≤ year → 1 ≤ month → month ≤ 12 →
      jd_from_datetime year month day hour minute = jd_spec year month day hour minute) ∧
    jd_from_datetime 2000 1 1 12 0 = 2451545 :=
  ⟨fun y m d h mi hy hm1 hm2 => jd_eq_spec y m d h mi hy hm1 hm2, jd_epoch⟩

theorem claim_C4_witness :
    ((1 : ℤ) ≤ 2000 ∧ (1 : ℤ) ≤ 1 ∧ (1 : ℤ) ≤ 12) ∧
    jd_from_datetime 2000 1 1 12 0 = jd_spec 2000 1 1 12 0 :=
  ⟨⟨by decide, by decide, by decide⟩,
    claim_C4_julian_day.1 2000 1 1 12 0 (by decide) (by decide) (by decide)⟩

/-- Claim C5 (counterexample to the original statement): `compute_spans`
(`src/visualize_alignments.py`), one of the validation sites the claim covers,
does fail immediately with no provider call, but its error message is only
`Unknown planet name: Pluto` — it does not advertise the list of valid
identifiers (for instance `Mercury` does not occur in it). -/
theorem claim_C5_counterexample :
    compute_spans (fun _ _ => 0) 0 0 ["Pluto"]
        = (Except.error "Unknown planet name: Pluto", []) ∧
      ¬ ("Mercury".data <:+: ("Unknown planet name: Pluto").data) := by
  constructor
  · rw [compute_spans,
      show validatePlotPlanets ["Pluto"] = some ("Unknown planet name: " ++ "Pluto") from rfl]
    rfl
  · decide

/-- Claim C5 (amended): a planet list containing an unknown name makes both
scans fail immediately, before any provider interaction (the fetch log is
empty), and no unknown name is silently dropped;
`list_planetary_alignments` advertises the full list of valid identifiers in
its error message, while `compute_spans` names only the offending planet. -/
theorem claim_C5_unknown_name (fetch : String → ℤ → ℚ) (lo hi : ℤ)
    (planets : List String) (thr : ℚ)
    (h : ∃ p ∈ planets, planetKeys.contains p = false) :
    (∃ msg, list_planetary_alignments fetch lo hi planets thr = (Except.error msg, []) ∧
      ∀ v ∈ planetKeys, v.data <:+: msg.data) ∧
    ∃ msg2, compute_spans fetch lo hi planets = (Except.error msg2, []) :=
  ⟨alignments_unknown h, compute_spans_unknown h⟩

theorem claim_C5_witness :
    (∃ p ∈ ["Pluto"], planetKeys.contains p = false) ∧
    ((∃ msg, list_planetary_alignments (fun _ _ => 0) 0 0 ["Pluto"] 10
        = (Except.error msg, []) ∧ ∀ v ∈ planetKeys, v.data <:+: msg.data) ∧
      ∃ msg2, compute_spans (fun _ _ => 0) 0 0 ["Pluto"] = (Except.error msg2, [])) :=
  ⟨by decide, claim_C5_unknown_name (fun _ _ => 0) 0 0 ["Pluto"] 10 (by decide)⟩

/-- Claim C6: candidate generation with equal mean motions
(`n_seed = n_ref`) fails with an error (Python raises `ZeroDivisionError` on
the first loop iteration); it never silently returns a candidate list, empty
or otherwise. -/
theorem claim_C6_equal_mean_motion (t0 lam_ref lam_seed n lo hi : ℝ) :
    gen_candidates t0 lam_ref lam_seed n n lo hi = Except.error "float division by zero" ∧
    ∀ cand, gen_candidates t0 lam_ref lam_seed n n lo hi ≠ Except.ok cand := by
  refine ⟨gen_candidates_equal_motion t0 lam_ref lam_seed n lo hi, ?_⟩
  intro cand hcand
  rw [gen_candidates_equal_motion] at hcand
  exact absurd hcand (by simp)

/-- Claim C7 (counterexample to the original statement): `mean_longitude`
does not return `(Ω + w + M) mod 360` in degrees; at `Ω = 90, w = 0, M = 0`
the claimed value is 90 but the function returns `math.radians(90) = π/2`. -/
theorem claim_C7_counterexample : mean_longitude ⟨0, 1, 90, 0, 0⟩ ≠ 90 := by
  rw [mean_longitude_example_value]
  intro hcontra
  have hpi := Real.pi_lt_d2
  have hpi2 := Real.pi_pos
  nlinarith

/-- Claim C7 (amended): `mean_longitude` returns
`math.radians((Ω + w + M) mod 360)`, i.e. the degree value
`(Ω + w + M) mod 360 ∈ [0, 360)` converted to radians, so the returned value
lies in `[0, 2π)`. -/
theorem claim_C7_mean_longitude (el : Elements) :
    mean_longitude el
        = ((norm360 (el.Omega_deg + el.w_deg + el.M_deg) : ℚ) : ℝ) * Real.pi / 180 ∧
      0 ≤ norm360 (el.Omega_deg + el.w_deg + el.M_deg) ∧
      norm360 (el.Omega_deg + el.w_deg + el.M_deg) < 360 ∧
      0 ≤ mean_longitude el ∧ mean_longitude el < 2 * Real.pi := by
  refine ⟨?_, norm360_nonneg _, norm360_lt _,
    (mean_longitude_bounds el).1, (mean_longitude_bounds el).2⟩
  rw [mean_longitude]
  ring

/-- Claim C8: the circular-span function is invariant under adding a constant
rotation to every input angle and under any permutation of the input list. -/
theorem claim_C8_invariance (xs ys : List ℚ) (c : ℚ) (hp : xs.Perm ys) :
    circularSpanDeg (xs.map fun x => x + c) = circularSpanDeg xs ∧
    circularSpanDeg ys = circularSpanDeg xs :=
  ⟨circularSpanDeg_shift xs c, circularSpanDeg_perm hp⟩

theorem claim_C8_witness :
    ([(10 : ℚ), 250].Perm [250, 10]) ∧
    (circularSpanDeg ([(10 : ℚ), 250].map fun x => x + 40) = circularSpanDeg [(10 : ℚ), 250] ∧
      circularSpanDeg [(250 : ℚ), 10] = circularSpanDeg [(10 : ℚ), 250]) :=
  ⟨List.Perm.swap 250 10 [], claim_C8_invariance [10, 250] [250, 10] 40 (List.Perm.swap 250 10 [])⟩

/-- Claim C9: the `basic_scan` span function returns 0 without error on the
empty list and on singletons, as the specification requires; but the
`eclipse2` copy raises `IndexError` (modelled by `none`) on the empty list
(`a[0]` on an empty list), while returning `some 0` on singletons. -/
theorem claim_C9_degenerate :
    circularSpanDeg ([] : List ℚ) = 0 ∧ (∀ x : ℚ, circularSpanDeg [x] = 0) ∧
    circular_span_deg ([] : List ℚ) = none ∧
    ∀ x : ℚ, circular_span_deg [x] = some 0 := by
  refine ⟨circularSpanDeg_nil, circularSpanDeg_singleton, circular_span_deg_nil, ?_⟩
  intro x
  rw [circular_span_deg_eq_some (by simp), circularSpanDeg_singleton]

/-- Claim C10: the intervals returned by `list_planetary_alignments` are
chronologically ordered and disjoint: each interval satisfies
`start ≤ end`, and each later interval starts at least two days after every
earlier interval ends (so consecutive intervals are separated by at least one
non-hit day). -/
theorem claim_C10_disjoint_ordered (fetch : String → ℤ → ℚ) (start_day end_day : ℤ)
    (planets : List String) (thr : ℚ) (res : List AlignmentHit) (log : List (String × ℤ))
    (h : list_planetary_alignments fetch start_day end_day planets thr = (Except.ok res, log))
    (_hlen : 2 ≤ res.length) :
    (∀ itv ∈ res, itv.start ≤ itv.stop) ∧
    res.Pairwise (fun a b => a.stop + 2 ≤ b.start) := by
  obtain ⟨h1, h2⟩ := alignments_ok h
  exact ⟨fun itv hitv => (h1 itv hitv).2.1, h2⟩

theorem claim_C10_witness :
    (list_planetary_alignments fetchTwoGap 0 2 ["Mercury", "Venus"] 10
      = (Except.ok [⟨0, 0, ["Mercury", "Venus"], 0⟩, ⟨2, 2, ["Mercury", "Venus"], 0⟩],
        [("199", 0), ("299", 0), ("199", 1), ("299", 1), ("199", 2), ("299", 2)])) ∧
    2 ≤ ([⟨0, 0, ["Mercury", "Venus"], 0⟩,
      (⟨2, 2, ["Mercury", "Venus"], 0⟩ : AlignmentHit)]).length ∧
    ((∀ itv ∈ [⟨0, 0, ["Mercury", "Venus"], 0⟩,
        (⟨2, 2, ["Mercury", "Venus"], 0⟩ : AlignmentHit)], itv.start ≤ itv.stop) ∧
      ([⟨0, 0, ["Mercury", "Venus"], 0⟩,
        (⟨2, 2, ["Mercury", "Venus"], 0⟩ : AlignmentHit)]).Pairwise
          (fun a b => a.stop + 2 ≤ b.start)) :=
  ⟨fetchTwoGap_eval, by norm_num,
    claim_C10_disjoint_ordered fetchTwoGap 0 2 ["Mercury", "Venus"] 10 _ _
      fetchTwoGap_eval (by norm_num)⟩

end Ecliptic
